import Mathlib

/-!
Shallow embedding of `validate_dependencies.py` from the cafe_pos_db
repository: the schema dependency validator.  `extract_table_definitions`
scans the SQL text line by line for `CREATE TABLE IF NOT EXISTS <name>`
declaration markers and `FOREIGN KEY (...) REFERENCES <name>(` dependency
markers, building an ordered mapping from table name to a record of its
dependencies and line number; `validate_dependencies` checks that every
referenced table is declared, and declared no later than the referencing
table, collecting one error message per offending reference.

Modelling conventions:
* Python strings are modelled over ASCII: the regex class `\w` is
  `[A-Za-z0-9_]`, `str.strip` strips ASCII whitespace, and `re.IGNORECASE`
  is ASCII case folding (`Char.toLower`).
* A Python `dict` is an association list in insertion order with unique
  keys; assignment to an existing key replaces the value in place, keeping
  the key's original position, exactly as Python dicts do.
* The `ValueError` that `list.index` can raise is modelled with `Except`.
* The two formatted error strings of the source are modelled by the
  constructors of `Violation`, which carry exactly the data interpolated
  into those strings (with positions rendered 1-based, as in the source).
-/

namespace SchemaDep

/-- ASCII model of the whitespace stripped by Python `str.strip()`. -/
def isPySpace (c : Char) : Bool :=
  c = ' ' || c = '\t' || c = '\n' || c = '\r' || c = '\x0b' || c = '\x0c'

/-- Python `line.strip()`. -/
def pyStrip (s : String) : String :=
  String.mk (((s.data.dropWhile isPySpace).reverse.dropWhile isPySpace).reverse)

/-- Python truthiness of a string: nonempty. -/
def pyTruthy (s : String) : Bool := !s.data.isEmpty

/-- Accumulator form of Python `sql_content.split('\n')`. -/
def pySplitLinesAux : List Char → List Char → List String
  | acc, [] => [String.mk acc.reverse]
  | acc, c :: cs =>
    if c = '\n' then String.mk acc.reverse :: pySplitLinesAux [] cs
    else pySplitLinesAux (c :: acc) cs

/-- Python `sql_content.split('\n')` (so `"".split` gives `[""]` and a
trailing newline yields a final empty line, as in Python). -/
def pySplitLines (s : String) : List String := pySplitLinesAux [] s.data

/-- The regex class `\w`, over ASCII. -/
def isWordChar (c : Char) : Bool := c.isAlphanum || c = '_'

/-- Case-insensitive literal match of a pattern at the head of the input;
returns the rest of the input on success. -/
def matchCaseless : List Char → List Char → Option (List Char)
  | [], cs => some cs
  | _ :: _, [] => none
  | p :: ps, c :: cs => if p.toLower = c.toLower then matchCaseless ps cs else none

/-- `re.search` semantics: try the position matcher at every position of
the input, leftmost first (including the empty suffix at the end). -/
def reSearch {α : Type} (f : List Char → Option α) : List Char → Option α
  | [] => f []
  | c :: cs =>
    match f (c :: cs) with
    | some r => some r
    | none => reSearch f cs

/-- One attempt of `CREATE TABLE IF NOT EXISTS (\w+)` at a fixed position:
the literal keyword text (case-insensitive) followed by a nonempty maximal
word-character run, which is the captured group. -/
def matchCreateAt (cs : List Char) : Option String :=
  match matchCaseless "CREATE TABLE IF NOT EXISTS ".data cs with
  | none => none
  | some rest =>
    let w := rest.takeWhile isWordChar
    if w.isEmpty then none else some (String.mk w)

/-- `re.search(create_table_pattern, line, re.IGNORECASE)`, returning the
captured table name. -/
def findCreate (line : String) : Option String := reSearch matchCreateAt line.data

/-- One attempt of `FOREIGN KEY \([^)]+\) REFERENCES (\w+)\(` at a fixed
position.  `[^)]+` is a nonempty run of non-`)` characters (greediness is
irrelevant: the run must stop at the first `)`); the captured `\w+` is a
maximal word run that must be followed by `(` (backtracking inside `\w+`
cannot help, since `(` is not a word character). -/
def matchForeignKeyAt (cs : List Char) : Option String :=
  match matchCaseless "FOREIGN KEY (".data cs with
  | none => none
  | some rest =>
    let inner := rest.takeWhile (fun c => c ≠ ')')
    if inner.isEmpty then none
    else
      match matchCaseless ") REFERENCES ".data (rest.drop inner.length) with
      | none => none
      | some rest2 =>
        let w := rest2.takeWhile isWordChar
        if w.isEmpty then none
        else
          match rest2.drop w.length with
          | '(' :: _ => some (String.mk w)
          | _ => none

/-- `re.search(foreign_key_pattern, line, re.IGNORECASE)`, returning the
captured referenced table name. -/
def findForeignKey (line : String) : Option String :=
  reSearch matchForeignKeyAt line.data

/-- The Python exceptions the embedded code can raise. -/
inductive PyExc where
  | valueError
deriving DecidableEq, Repr

/-- The per-table record `{'dependencies': [...], 'line_num': n}`. -/
structure TableRec where
  dependencies : List String
  line_num : Nat
deriving DecidableEq, Repr

/-- The `tables` dict: an association list in key insertion order. -/
abbrev Tables := List (String × TableRec)

/-- `list(tables.keys())`. -/
def tableKeys (t : Tables) : List String := t.map Prod.fst

/-- `tables[k] = v`: replace the value in place when the key is present
(Python dicts keep the key's original position), else append. -/
def pyDictSet (t : Tables) (k : String) (v : TableRec) : Tables :=
  if k ∈ tableKeys t then t.map (fun p => if p.1 = k then (k, v) else p)
  else t ++ [(k, v)]

/-- `tables[k]['dependencies'].append(dep)`. -/
def pyAppendDep (t : Tables) (k : String) (dep : String) : Tables :=
  t.map (fun p =>
    if p.1 = k then (p.1, ⟨p.2.dependencies ++ [dep], p.2.line_num⟩) else p)

/-- `tables[k]`: the first entry with that key (keys are unique in tables
built by `pyDictSet`).  The default is unreachable in the pipeline, where
the key is always present (Python would raise `KeyError`). -/
def lookupRec : Tables → String → TableRec
  | [], _ => ⟨[], 0⟩
  | p :: t, k => if p.1 = k then p.2 else lookupRec t k

/-- The loop state of `extract_table_definitions`: the `current_table`
variable and the `tables` dict. -/
structure ExtractState where
  current_table : Option String
  tables : Tables
deriving DecidableEq, Repr

/-- `len([l for l in lines[:lines.index(line)] if l.strip()])`.  Python's
`list.index` raises `ValueError` when the already-stripped line is not
literally present in `lines`; otherwise it yields the index of the first
occurrence. -/
def lineNumOf (lines : List String) (stripped : String) : Except PyExc Nat :=
  match lines.findIdx? (· == stripped) with
  | none => .error .valueError
  | some idx => .ok ((lines.take idx).countP (fun l => pyTruthy (pyStrip l)))

/-- The body of the `for line in lines:` loop of
`extract_table_definitions`: strip the line; on a CREATE match set
`current_table` and assign a fresh record (then `continue`); otherwise,
when `current_table` is truthy, record a FOREIGN KEY match unless it is a
self-reference. -/
def extractStep (lines : List String) (st : ExtractState) (rawLine : String) :
    Except PyExc ExtractState :=
  let line := pyStrip rawLine
  match findCreate line with
  | some name =>
    (lineNumOf lines line).map (fun ln =>
      ⟨some name, pyDictSet st.tables name ⟨[], ln⟩⟩)
  | none =>
    match st.current_table with
    | none => .ok st
    | some ct =>
      if ct = "" then .ok st
      else
        match findForeignKey line with
        | some referenced_table =>
          if referenced_table = ct then .ok st
          else .ok ⟨st.current_table, pyAppendDep st.tables ct referenced_table⟩
        | none => .ok st

/-- The whole extraction loop over an explicit list of lines. -/
def extractLines (lines : List String) : Except PyExc Tables :=
  (lines.foldlM (extractStep lines) ⟨none, []⟩).map ExtractState.tables

/-- `extract_table_definitions(sql_content)`. -/
def extract_table_definitions (sql_content : String) : Except PyExc Tables :=
  extractLines (pySplitLines sql_content)

/-- The violation kinds of the spec's taxonomy.  The two reference kinds
carry exactly the data interpolated into the source's formatted error
strings (an injective rendering; positions appear 1-based there, as
`i+1` and `dependency_index+1`).  `duplicateDeclaration` is the spec's
third kind; as proved below, `validate_dependencies` never produces it. -/
inductive Violation where
  | undeclaredReference (subject target : String)
  | forwardReference (subject : String) (subject_position : Nat)
      (target : String) (target_position : Nat)
  | duplicateDeclaration (name : String)
deriving DecidableEq, Repr

/-- The entity a violation is about. -/
def Violation.subject : Violation → String
  | .undeclaredReference s _ => s
  | .forwardReference s _ _ _ => s
  | .duplicateDeclaration s => s

/-- The entity a reference-kind violation points at. -/
def Violation.target : Violation → String
  | .undeclaredReference _ t => t
  | .forwardReference _ _ t _ => t
  | .duplicateDeclaration s => s

/-- `table_order.index(dependency) if dependency in table_order else -1`. -/
def pyListIndex (xs : List String) (x : String) : Int :=
  if x ∈ xs then (xs.findIdx (· == x) : Int) else -1

/-- The body of the inner `for dependency in ...` loop of
`validate_dependencies`: at most one violation per dependency. -/
def checkDep (table_order : List String) (t : Tables) (i : Nat)
    (table_name dep : String) : Option Violation :=
  if dep ∉ tableKeys t then some (.undeclaredReference table_name dep)
  else
    let dependency_index := pyListIndex table_order dep
    if dependency_index > (i : Int) then
      some (.forwardReference table_name (i + 1) dep (dependency_index.toNat + 1))
    else none

/-- `validate_dependencies(tables)`: the two nested `for` loops over
`enumerate(table_order)` and the dependency list, appending to `errors`. -/
def validate_dependencies (t : Tables) : List Violation :=
  let table_order := tableKeys t
  table_order.enum.foldl (fun errors p =>
    (lookupRec t p.2).dependencies.foldl (fun errors dep =>
      errors ++ (checkDep table_order t p.1 p.2 dep).toList) errors) []

/-- The violations contributed by one subject (one iteration of the outer
loop), in dependency discovery order. -/
def subjectBlock (table_order : List String) (t : Tables) (p : Nat × String) :
    List Violation :=
  (lookupRec t p.2).dependencies.filterMap (checkDep table_order t p.1 p.2)

/-- Running the whole pipeline: extraction followed by validation. -/
def runPipeline (sql_content : String) : Except PyExc (List Violation) :=
  (extract_table_definitions sql_content).map validate_dependencies

/-- The part of a table record that `validate_dependencies` can observe:
its key and its dependency list (the line number is dead data there). -/
def namesDeps (t : Tables) : List (String × List String) :=
  t.map (fun p => (p.1, p.2.dependencies))

/-- Position of a violation's subject in the key order. -/
def subjectIndex (table_order : List String) (v : Violation) : Nat :=
  table_order.findIdx (· == v.subject)

/-- The extraction invariant behind self-reference exclusion: no table's
dependency list contains the table's own name. -/
def NoSelfRef (t : Tables) : Prop := ∀ n d, (n, d) ∈ t → n ∉ d.dependencies

/-- Two extraction states that agree on everything the validator can
observe (current table, key order, dependency lists); the line-number
field may differ. -/
def StRel (st st' : ExtractState) : Prop :=
  st.current_table = st'.current_table ∧ namesDeps st.tables = namesDeps st'.tables

/-- Reading `list(tables.keys())`, with the dict state threaded. -/
def readKeys (t : Tables) : Tables × List String := (t, tableKeys t)

/-- Reading `tables[k]['dependencies']`, with the dict state threaded. -/
def readDeps (t : Tables) (k : String) : Tables × List String :=
  (t, (lookupRec t k).dependencies)

/-- One inner-loop body (`checkDep`) reading the threaded dict state. -/
def readCheckDep (t : Tables) (table_order : List String) (i : Nat)
    (table_name dep : String) : Tables × Option Violation :=
  (t, checkDep table_order t i table_name dep)

/-- State-passing form of `validate_dependencies`: every access the source
makes to the `tables` dict is an explicit read of a threaded dict state, so
that "the mapping is left unchanged" is a statement, not a typing
accident. -/
def validateSt (t : Tables) : Tables × List Violation :=
  let s0 := readKeys t
  s0.2.enum.foldl (fun st p =>
    let sd := readDeps st.1 p.2
    sd.2.foldl (fun st2 dep =>
      let sc := readCheckDep st2.1 s0.2 p.1 p.2 dep
      (sc.1, st2.2 ++ sc.2.toList)) (sd.1, st.2)) (s0.1, [])

/- ## General list lemmas used to restructure the loops -/

lemma foldl_opt_append {α β : Type} (f : α → Option β) (l : List α) (acc : List β) :
    l.foldl (fun errors a => errors ++ (f a).toList) acc = acc ++ l.filterMap f := by
  induction l generalizing acc with
  | nil => simp
  | cons a l ih =>
    rw [List.foldl_cons]
    cases h : f a <;> simp [List.filterMap_cons, h, ih]

lemma foldl_append_flatMap {α β : Type} (h : α → List β) (l : List α) (acc : List β) :
    l.foldl (fun acc a => acc ++ h a) acc = acc ++ l.flatMap h := by
  induction l generalizing acc with
  | nil => simp
  | cons a l ih => simp [ih]

/-- The nested loops of `validate_dependencies`, as a flat concatenation of
per-subject blocks in subject order. -/
lemma validate_eq_flatMap (t : Tables) :
    validate_dependencies t =
      (tableKeys t).enum.flatMap (subjectBlock (tableKeys t) t) := by
  unfold validate_dependencies
  have h : ∀ (p : Nat × String) (acc : List Violation),
      (lookupRec t p.2).dependencies.foldl (fun errors dep =>
        errors ++ (checkDep (tableKeys t) t p.1 p.2 dep).toList) acc
        = acc ++ subjectBlock (tableKeys t) t p := by
    intro p acc
    rw [subjectBlock]
    exact foldl_opt_append (checkDep (tableKeys t) t p.1 p.2)
      (lookupRec t p.2).dependencies acc
  calc (tableKeys t).enum.foldl (fun errors p =>
        (lookupRec t p.2).dependencies.foldl (fun errors dep =>
          errors ++ (checkDep (tableKeys t) t p.1 p.2 dep).toList) errors) []
      = (tableKeys t).enum.foldl
          (fun errors p => errors ++ subjectBlock (tableKeys t) t p) [] := by
        congr 1
        funext errors p
        exact h p errors
    _ = (tableKeys t).enum.flatMap (subjectBlock (tableKeys t) t) := by
        rw [foldl_append_flatMap]
        simp

/-- With unique keys, dict lookup returns the record of a known member. -/
lemma lookupRec_eq_of_nodup_mem {t : Tables} (hnd : (tableKeys t).Nodup)
    {k : String} {d : TableRec} (hm : (k, d) ∈ t) :
    lookupRec t k = d := by
  induction t with
  | nil => cases hm
  | cons a t ih =>
    rcases List.mem_cons.mp hm with h | h
    · rw [← h]
      simp [lookupRec]
    · have hk : a.1 ≠ k := by
        intro he
        have : k ∈ tableKeys t := List.mem_map.mpr ⟨(k, d), h, rfl⟩
        rw [tableKeys, List.map_cons, List.nodup_cons] at hnd
        exact hnd.1 (he ▸ this)
      rw [lookupRec, if_neg hk]
      exact ih (by
        rw [tableKeys, List.map_cons, List.nodup_cons] at hnd
        exact hnd.2) h

/-- Whatever dict lookup returns is either an actual entry under that key
or the (in the pipeline unreachable) default. -/
lemma lookupRec_mem_or_default (t : Tables) (k : String) :
    (k, lookupRec t k) ∈ t ∨ lookupRec t k = ⟨[], 0⟩ := by
  induction t with
  | nil => exact Or.inr rfl
  | cons a t ih =>
    by_cases hk : a.1 = k
    · left
      rw [lookupRec, if_pos hk, ← hk]
      exact List.mem_cons_self _ _
    · rw [lookupRec, if_neg hk]
      rcases ih with h | h
      · exact Or.inl (List.mem_cons_of_mem _ h)
      · exact Or.inr h

/-- In a nodup list, the element found at a position is first found there. -/
lemma findIdx_eq_of_nodup {l : List String} (hnd : l.Nodup) :
    ∀ {i : Nat} {x : String}, l[i]? = some x → l.findIdx (· == x) = i := by
  induction l with
  | nil => intro i x h; simp at h
  | cons a l ih =>
    intro i x h
    match i with
    | 0 =>
      rw [List.getElem?_cons_zero, Option.some_inj] at h
      subst h
      simp [List.findIdx_cons]
    | i + 1 =>
      rw [List.getElem?_cons_succ] at h
      have hx : x ∈ l := List.mem_iff_getElem?.mpr ⟨i, h⟩
      have hax : a ≠ x := by
        rintro rfl
        exact (List.nodup_cons.mp hnd).1 hx
      have : (a == x) = false := by simp [hax]
      rw [List.findIdx_cons, this, cond_false, ih (List.nodup_cons.mp hnd).2 h]

lemma fst_ge_of_mem_enumFrom {l : List String} {n : Nat} {p : Nat × String}
    (h : p ∈ l.enumFrom n) : n ≤ p.1 :=
  (List.mem_enumFrom (show (p.1, p.2) ∈ l.enumFrom n from h)).1

/-- Sum over an enumerated list where at most the entry at one index is
nonzero. -/
lemma sum_enumFrom_single (g : Nat × String → Nat) :
    ∀ (l : List String) (n i : Nat) (s : String), l[i]? = some s →
      (∀ p ∈ l.enumFrom n, p.1 ≠ n + i → g p = 0) →
      ((l.enumFrom n).map g).sum = g (n + i, s) := by
  intro l
  induction l with
  | nil => intro n i s h _; simp at h
  | cons a l ih =>
    intro n i s h hz
    match i with
    | 0 =>
      rw [List.getElem?_cons_zero, Option.some_inj] at h
      subst h
      rw [List.enumFrom_cons, List.map_cons, List.sum_cons]
      have hz' : ((l.enumFrom (n + 1)).map g).sum = 0 := by
        apply List.sum_eq_zero
        intro x hx
        obtain ⟨p, hp, rfl⟩ := List.mem_map.mp hx
        have hge : n + 1 ≤ p.1 := fst_ge_of_mem_enumFrom hp
        exact hz p (by rw [List.enumFrom_cons]; exact List.mem_cons_of_mem _ hp)
          (by omega)
      rw [hz']
      simp
    | i + 1 =>
      rw [List.getElem?_cons_succ] at h
      rw [List.enumFrom_cons, List.map_cons, List.sum_cons]
      have h0 : g (n, a) = 0 :=
        hz (n, a) (by rw [List.enumFrom_cons]; exact List.mem_cons_self _ _)
          (by omega)
      have hrec := ih (n + 1) i s h (by
        intro p hp hne
        exact hz p (by rw [List.enumFrom_cons]; exact List.mem_cons_of_mem _ hp)
          (by omega))
      rw [h0, Nat.zero_add, hrec]
      have : n + 1 + i = n + (i + 1) := by omega
      rw [this]

/-- Flattening an enumerated list where at most the block at one index is
nonempty. -/
lemma flatMap_enumFrom_single {β : Type} (g : Nat × String → List β) :
    ∀ (l : List String) (n i : Nat) (s : String), l[i]? = some s →
      (∀ p ∈ l.enumFrom n, p.1 ≠ n + i → g p = []) →
      (l.enumFrom n).flatMap g = g (n + i, s) := by
  intro l
  induction l with
  | nil => intro n i s h _; simp at h
  | cons a l ih =>
    intro n i s h hz
    match i with
    | 0 =>
      rw [List.getElem?_cons_zero, Option.some_inj] at h
      subst h
      rw [List.enumFrom_cons, List.flatMap_cons]
      have hz' : (l.enumFrom (n + 1)).flatMap g = [] := by
        apply List.flatMap_eq_nil_iff.mpr
        intro p hp
        have hge : n + 1 ≤ p.1 := fst_ge_of_mem_enumFrom hp
        exact hz p (by rw [List.enumFrom_cons]; exact List.mem_cons_of_mem _ hp)
          (by omega)
      rw [hz', List.append_nil]
      simp
    | i + 1 =>
      rw [List.getElem?_cons_succ] at h
      rw [List.enumFrom_cons, List.flatMap_cons]
      have h0 : g (n, a) = [] :=
        hz (n, a) (by rw [List.enumFrom_cons]; exact List.mem_cons_self _ _)
          (by omega)
      have hrec := ih (n + 1) i s h (by
        intro p hp hne
        exact hz p (by rw [List.enumFrom_cons]; exact List.mem_cons_of_mem _ hp)
          (by omega))
      rw [h0, List.nil_append, hrec]
      have : n + 1 + i = n + (i + 1) := by omega
      rw [this]

lemma pairwise_le_of_all_eq {l : List Nat} {c : Nat} (h : ∀ x ∈ l, x = c) :
    l.Pairwise (· ≤ ·) := by
  induction l with
  | nil => exact List.Pairwise.nil
  | cons a l ih =>
    refine List.Pairwise.cons ?_ (ih (fun x hx => h x (List.mem_cons_of_mem _ hx)))
    intro y hy
    rw [h a (List.mem_cons_self _ _), h y (List.mem_cons_of_mem _ hy)]

/-- Flattening blocks along an enumeration, where every element of a block
equals the block's index, yields a weakly increasing list. -/
lemma pairwise_flatMap_enumFrom (g : Nat × String → List Nat) :
    ∀ (l : List String) (n : Nat),
      (∀ p ∈ l.enumFrom n, ∀ x ∈ g p, x = p.1) →
      ((l.enumFrom n).flatMap g).Pairwise (· ≤ ·) := by
  intro l
  induction l with
  | nil => intro n _; simp
  | cons a l ih =>
    intro n h
    rw [List.enumFrom_cons, List.flatMap_cons]
    apply List.pairwise_append.mpr
    refine ⟨?_, ?_, ?_⟩
    · exact pairwise_le_of_all_eq
        (h (n, a) (by rw [List.enumFrom_cons]; exact List.mem_cons_self _ _))
    · exact ih (n + 1) (fun p hp =>
        h p (by rw [List.enumFrom_cons]; exact List.mem_cons_of_mem _ hp))
    · intro x hx y hy
      rw [h (n, a) (by rw [List.enumFrom_cons]; exact List.mem_cons_self _ _) x hx]
      obtain ⟨p, hp, hyp⟩ := List.mem_flatMap.mp hy
      rw [h p (by rw [List.enumFrom_cons]; exact List.mem_cons_of_mem _ hp) y hyp]
      exact Nat.le_trans (Nat.le_succ n) (fst_ge_of_mem_enumFrom hp)

/- ## Characterising `checkDep` -/

lemma checkDep_subject {table_order : List String} {t : Tables} {i : Nat}
    {tname dep : String} {v : Violation}
    (h : checkDep table_order t i tname dep = some v) : v.subject = tname := by
  simp only [checkDep] at h
  split at h
  · rw [Option.some_inj] at h; subst h; rfl
  · split at h
    · rw [Option.some_inj] at h; subst h; rfl
    · cases h

lemma checkDep_ne_dup {table_order : List String} {t : Tables} {i : Nat}
    {tname dep name : String} :
    checkDep table_order t i tname dep ≠ some (.duplicateDeclaration name) := by
  simp only [checkDep]
  split
  · simp
  · split <;> simp

lemma checkDep_undeclared_inv {table_order : List String} {t : Tables} {i : Nat}
    {tname dep s r : String}
    (h : checkDep table_order t i tname dep = some (.undeclaredReference s r)) :
    s = tname ∧ r = dep ∧ dep ∉ tableKeys t := by
  simp only [checkDep] at h
  split at h
  · rw [Option.some_inj] at h
    cases h
    exact ⟨rfl, rfl, by assumption⟩
  · split at h
    · cases h
    · cases h

lemma checkDep_forward_inv {table_order : List String} {t : Tables} {i : Nat}
    {tname dep s r : String} {sp tp : Nat}
    (h : checkDep table_order t i tname dep = some (.forwardReference s sp r tp)) :
    s = tname ∧ r = dep ∧ dep ∈ tableKeys t ∧
      pyListIndex table_order dep > (i : Int) ∧
      sp = i + 1 ∧ tp = (pyListIndex table_order dep).toNat + 1 := by
  simp only [checkDep] at h
  split at h
  · cases h
  · split at h
    · rw [Option.some_inj] at h
      cases h
      rename_i hmem hgt
      exact ⟨rfl, rfl, not_not.mp hmem, hgt, rfl, rfl⟩
    · cases h

lemma checkDep_undeclared_eval {table_order : List String} {t : Tables} {i : Nat}
    {tname dep : String} (h : dep ∉ tableKeys t) :
    checkDep table_order t i tname dep = some (.undeclaredReference tname dep) := by
  simp only [checkDep, if_pos h]

lemma checkDep_forward_eval {table_order : List String} {t : Tables} {i : Nat}
    {tname dep : String} (h : dep ∈ tableKeys t)
    (hgt : pyListIndex table_order dep > (i : Int)) :
    checkDep table_order t i tname dep =
      some (.forwardReference tname (i + 1) dep
        ((pyListIndex table_order dep).toNat + 1)) := by
  simp only [checkDep]
  rw [if_neg (by simp [h]), if_pos hgt]

lemma checkDep_none_of_le {table_order : List String} {t : Tables} {i : Nat}
    {tname dep : String} (h : dep ∈ tableKeys t)
    (hle : ¬ pyListIndex table_order dep > (i : Int)) :
    checkDep table_order t i tname dep = none := by
  simp only [checkDep]
  rw [if_neg (by simp [h]), if_neg hle]

/-- `pyListIndex` on a nodup list evaluates to the (unique) position. -/
lemma pyListIndex_eq_of_nodup {l : List String} (hnd : l.Nodup) {j : Nat}
    {r : String} (h : l[j]? = some r) : pyListIndex l r = (j : Int) := by
  have hm : r ∈ l := List.mem_iff_getElem?.mpr ⟨j, h⟩
  rw [pyListIndex, if_pos hm, findIdx_eq_of_nodup hnd h]

/-- Membership in the validator's output, through the block structure. -/
lemma mem_validate_iff {t : Tables} {v : Violation} :
    v ∈ validate_dependencies t ↔
      ∃ p ∈ (tableKeys t).enum, ∃ dep ∈ (lookupRec t p.2).dependencies,
        checkDep (tableKeys t) t p.1 p.2 dep = some v := by
  rw [validate_eq_flatMap]
  rw [List.mem_flatMap]
  constructor
  · rintro ⟨p, hp, hv⟩
    obtain ⟨dep, hdep, hcd⟩ := List.mem_filterMap.mp hv
    exact ⟨p, hp, dep, hdep, hcd⟩
  · rintro ⟨p, hp, dep, hdep, hcd⟩
    exact ⟨p, hp, List.mem_filterMap.mpr ⟨dep, hdep, hcd⟩⟩

/- ## Extraction lemmas -/

/-- A line with no declaration match is a no-op while no table is open. -/
lemma extractStep_noop {lines : List String} {st : ExtractState} {line : String}
    (hc : findCreate (pyStrip line) = none) (hcur : st.current_table = none) :
    extractStep lines st line = .ok st := by
  simp only [extractStep, hc, hcur]

lemma extractStep_create {lines : List String} {st : ExtractState}
    {line name : String} (hc : findCreate (pyStrip line) = some name) :
    extractStep lines st line =
      (lineNumOf lines (pyStrip line)).map (fun ln =>
        ⟨some name, pyDictSet st.tables name ⟨[], ln⟩⟩) := by
  simp only [extractStep, hc]

lemma extractStep_empty_ct {lines : List String} {st : ExtractState}
    {line : String} (hc : findCreate (pyStrip line) = none)
    (hcur : st.current_table = some "") :
    extractStep lines st line = .ok st := by
  simp [extractStep, hc, hcur]

lemma extractStep_nofk {lines : List String} {st : ExtractState}
    {line ct : String} (hc : findCreate (pyStrip line) = none)
    (hcur : st.current_table = some ct) (hemp : ct ≠ "")
    (hf : findForeignKey (pyStrip line) = none) :
    extractStep lines st line = .ok st := by
  simp only [extractStep, hc, hcur, hf, if_neg hemp]

lemma extractStep_selfref {lines : List String} {st : ExtractState}
    {line ct ref : String} (hc : findCreate (pyStrip line) = none)
    (hcur : st.current_table = some ct) (hemp : ct ≠ "")
    (hf : findForeignKey (pyStrip line) = some ref) (hrc : ref = ct) :
    extractStep lines st line = .ok st := by
  simp only [extractStep, hc, hcur, hf, if_neg hemp, if_pos hrc]

lemma extractStep_fk {lines : List String} {st : ExtractState}
    {line ct ref : String} (hc : findCreate (pyStrip line) = none)
    (hcur : st.current_table = some ct) (hemp : ct ≠ "")
    (hf : findForeignKey (pyStrip line) = some ref) (hrc : ref ≠ ct) :
    extractStep lines st line = .ok ⟨some ct, pyAppendDep st.tables ct ref⟩ := by
  simp only [extractStep, hc, hcur, hf, if_neg hemp, if_neg hrc]

/-- Lines containing no declaration marker leave the extraction state
untouched while no table is open, whatever the surrounding document is. -/
lemma foldlM_no_create {tbls : Tables} :
    ∀ (pre ctx : List String),
      (∀ l ∈ pre, findCreate (pyStrip l) = none) →
      pre.foldlM (extractStep ctx) ⟨none, tbls⟩ = .ok ⟨none, tbls⟩ := by
  intro pre
  induction pre with
  | nil => intro ctx _; rfl
  | cons a pre ih =>
    intro ctx h
    rw [List.foldlM_cons, extractStep_noop (h a (List.mem_cons_self _ _)) rfl]
    exact ih ctx (fun l hl => h l (List.mem_cons_of_mem _ hl))

lemma noSelfRef_dictSet {t : Tables} (h : NoSelfRef t) (k : String) (ln : Nat) :
    NoSelfRef (pyDictSet t k ⟨[], ln⟩) := by
  intro n d hm
  rw [pyDictSet] at hm
  split at hm
  · obtain ⟨p, hp, he⟩ := List.mem_map.mp hm
    by_cases hk : p.1 = k
    · rw [if_pos hk] at he
      cases he
      simp
    · rw [if_neg hk] at he
      exact h n d (he ▸ hp)
  · rcases List.mem_append.mp hm with h1 | h1
    · exact h n d h1
    · have : (n, d) = (k, (⟨[], ln⟩ : TableRec)) := by simpa using h1
      cases this
      simp

lemma noSelfRef_appendDep {t : Tables} (h : NoSelfRef t) {ct ref : String}
    (hne : ref ≠ ct) : NoSelfRef (pyAppendDep t ct ref) := by
  intro n d hm
  rw [pyAppendDep] at hm
  obtain ⟨p, hp, he⟩ := List.mem_map.mp hm
  by_cases hk : p.1 = ct
  · rw [if_pos hk] at he
    cases he
    intro hmem
    rcases List.mem_append.mp hmem with h1 | h1
    · exact h p.1 p.2 (by rwa [Prod.mk.eta]) h1
    · have : p.1 = ref := by simpa using h1
      exact hne (by rw [← this, hk])
  · rw [if_neg hk] at he
    exact h n d (he ▸ hp)

lemma extractStep_noSelfRef {lines : List String} {st st' : ExtractState}
    {line : String} (h : NoSelfRef st.tables)
    (hs : extractStep lines st line = .ok st') : NoSelfRef st'.tables := by
  simp only [extractStep] at hs
  cases hc : findCreate (pyStrip line) with
  | some name =>
    rw [hc] at hs
    cases hl : lineNumOf lines (pyStrip line) with
    | error e => rw [hl] at hs; cases hs
    | ok ln =>
      rw [hl] at hs
      simp only [Except.map] at hs
      cases hs
      exact noSelfRef_dictSet h name ln
  | none =>
    rw [hc] at hs
    cases hcur : st.current_table with
    | none => rw [hcur] at hs; cases hs; exact h
    | some ct =>
      rw [hcur] at hs
      dsimp only at hs
      by_cases hemp : ct = ""
      · rw [if_pos hemp] at hs; cases hs; exact h
      · rw [if_neg hemp] at hs
        cases hf : findForeignKey (pyStrip line) with
        | some ref =>
          rw [hf] at hs
          dsimp only at hs
          by_cases hrc : ref = ct
          · rw [if_pos hrc] at hs; cases hs; exact h
          · rw [if_neg hrc] at hs; cases hs; exact noSelfRef_appendDep h hrc
        | none => rw [hf] at hs; cases hs; exact h

lemma foldlM_noSelfRef :
    ∀ (ls ctx : List String) (st out : ExtractState),
      NoSelfRef st.tables →
      ls.foldlM (extractStep ctx) st = .ok out → NoSelfRef out.tables := by
  intro ls
  induction ls with
  | nil =>
    intro ctx st out h hf
    cases hf
    exact h
  | cons a ls ih =>
    intro ctx st out h hf
    rw [List.foldlM_cons] at hf
    cases hstep : extractStep ctx st a with
    | error e =>
      rw [hstep] at hf
      simp only [bind, Except.bind] at hf
      exact Except.noConfusion hf
    | ok st1 =>
      rw [hstep] at hf
      simp only [bind, Except.bind] at hf
      exact ih ctx st1 out (extractStep_noSelfRef h hstep) hf

/- ## The extraction state up to line numbers -/

lemma keys_namesDeps (t : Tables) : tableKeys t = (namesDeps t).map Prod.fst := by
  rw [tableKeys, namesDeps, List.map_map]
  exact List.map_congr_left (fun p _ => rfl)

lemma keys_eq_of_namesDeps {t t' : Tables} (h : namesDeps t = namesDeps t') :
    tableKeys t = tableKeys t' := by
  rw [keys_namesDeps, keys_namesDeps, h]

/-- What dict assignment does to the validator-visible view. -/
lemma namesDeps_dictSet (t : Tables) (k : String) (v : TableRec) :
    namesDeps (pyDictSet t k v) =
      if k ∈ (namesDeps t).map Prod.fst
      then (namesDeps t).map (fun q => if q.1 = k then (k, v.dependencies) else q)
      else namesDeps t ++ [(k, v.dependencies)] := by
  rw [pyDictSet]
  by_cases hk : k ∈ tableKeys t
  · rw [if_pos hk, if_pos (by rwa [← keys_namesDeps])]
    rw [namesDeps, namesDeps, List.map_map, List.map_map]
    apply List.map_congr_left
    intro p _
    by_cases hp : p.1 = k <;> simp [hp, Function.comp]
  · rw [if_neg hk, if_neg (by rwa [← keys_namesDeps])]
    rw [namesDeps, namesDeps, List.map_append]
    rfl

/-- What appending a dependency does to the validator-visible view. -/
lemma namesDeps_appendDep (t : Tables) (ct ref : String) :
    namesDeps (pyAppendDep t ct ref) =
      (namesDeps t).map (fun q => if q.1 = ct then (q.1, q.2 ++ [ref]) else q) := by
  rw [pyAppendDep, namesDeps, namesDeps, List.map_map, List.map_map]
  apply List.map_congr_left
  intro p _
  by_cases hp : p.1 = ct <;> simp [hp, Function.comp]

/-- Embedding a document into a larger one can only make `list.index`
succeed more often. -/
lemma lineNumOf_extend {pre ctx : List String} {s : String} {n : Nat}
    (h : lineNumOf ctx s = .ok n) : ∃ m, lineNumOf (pre ++ ctx) s = .ok m := by
  have hf : ∃ i, ctx.findIdx? (· == s) = some i := by
    rw [lineNumOf] at h
    cases hf : ctx.findIdx? (· == s) with
    | none => rw [hf] at h; cases h
    | some i => exact ⟨i, rfl⟩
  obtain ⟨i, hi⟩ := hf
  rw [lineNumOf, List.findIdx?_append, hi]
  cases hp : pre.findIdx? (· == s) with
  | some j => exact ⟨_, rfl⟩
  | none => exact ⟨_, rfl⟩

/-- One extraction step, run in two contexts of which the second resolves
at least the line numbers the first does, preserves `StRel`. -/
lemma extractStep_ctx {ctx ctx2 : List String}
    (hext : ∀ s n, lineNumOf ctx s = .ok n → ∃ m, lineNumOf ctx2 s = .ok m)
    {st st' out : ExtractState} {line : String} (hrel : StRel st st')
    (hs : extractStep ctx st line = .ok out) :
    ∃ out', extractStep ctx2 st' line = .ok out' ∧ StRel out out' := by
  obtain ⟨hcur, hnd⟩ := hrel
  cases hc : findCreate (pyStrip line) with
  | some name =>
    rw [extractStep_create hc] at hs
    cases hl : lineNumOf ctx (pyStrip line) with
    | error e =>
      rw [hl] at hs
      simp only [Except.map] at hs
      exact Except.noConfusion hs
    | ok n =>
      rw [hl] at hs
      simp only [Except.map] at hs
      cases hs
      obtain ⟨m, hm⟩ := hext _ n hl
      rw [extractStep_create hc, hm]
      simp only [Except.map]
      refine ⟨_, rfl, rfl, ?_⟩
      rw [namesDeps_dictSet, namesDeps_dictSet, hnd]
  | none =>
    cases hcv : st.current_table with
    | none =>
      have hcv' : st'.current_table = none := by rw [← hcur, hcv]
      rw [extractStep_noop hc hcv] at hs
      cases hs
      rw [extractStep_noop hc hcv']
      exact ⟨st', rfl, hcur, hnd⟩
    | some ct =>
      have hcv' : st'.current_table = some ct := by rw [← hcur, hcv]
      by_cases hemp : ct = ""
      · subst hemp
        rw [extractStep_empty_ct hc hcv] at hs
        cases hs
        exact ⟨st', extractStep_empty_ct hc hcv', hcur, hnd⟩
      · cases hf : findForeignKey (pyStrip line) with
        | none =>
          rw [extractStep_nofk hc hcv hemp hf] at hs
          cases hs
          exact ⟨st', extractStep_nofk hc hcv' hemp hf, hcur, hnd⟩
        | some ref =>
          by_cases hrc : ref = ct
          · rw [extractStep_selfref hc hcv hemp hf hrc] at hs
            cases hs
            exact ⟨st', extractStep_selfref hc hcv' hemp hf hrc, hcur, hnd⟩
          · rw [extractStep_fk hc hcv hemp hf hrc] at hs
            cases hs
            refine ⟨_, extractStep_fk hc hcv' hemp hf hrc, rfl, ?_⟩
            rw [namesDeps_appendDep, namesDeps_appendDep, hnd]

/-- The whole extraction loop preserves `StRel` across such a context
extension. -/
lemma foldlM_ctx {ctx ctx2 : List String}
    (hext : ∀ s n, lineNumOf ctx s = .ok n → ∃ m, lineNumOf ctx2 s = .ok m) :
    ∀ (ls : List String) (st st' : ExtractState) {out : ExtractState},
      StRel st st' → ls.foldlM (extractStep ctx) st = .ok out →
      ∃ out', ls.foldlM (extractStep ctx2) st' = .ok out' ∧ StRel out out' := by
  intro ls
  induction ls with
  | nil =>
    intro st st' out hrel hf
    cases hf
    exact ⟨st', rfl, hrel⟩
  | cons a ls ih =>
    intro st st' out hrel hf
    rw [List.foldlM_cons] at hf ⊢
    cases hstep : extractStep ctx st a with
    | error e =>
      rw [hstep] at hf
      simp only [bind, Except.bind] at hf
      exact Except.noConfusion hf
    | ok st1 =>
      rw [hstep] at hf
      simp only [bind, Except.bind] at hf
      obtain ⟨st1', hstep', hrel1⟩ := extractStep_ctx hext hrel hstep
      rw [hstep']
      simp only [bind, Except.bind]
      exact ih st1 st1' hrel1 hf

/-- Dict lookup of the dependency list only depends on the
validator-visible view. -/
lemma lookupRec_deps_congr :
    ∀ {t t' : Tables}, namesDeps t = namesDeps t' → ∀ k,
      (lookupRec t k).dependencies = (lookupRec t' k).dependencies := by
  intro t
  induction t with
  | nil =>
    intro t' h k
    have ht' : t' = [] := List.map_eq_nil_iff.mp h.symm
    subst ht'
    rfl
  | cons a t ih =>
    intro t' h k
    cases t' with
    | nil => exact absurd h (by simp [namesDeps])
    | cons b t2 =>
      simp only [namesDeps, List.map_cons] at h
      injection h with h1 h2
      injection h1 with hfst hsnd
      rw [lookupRec, lookupRec]
      by_cases hk : a.1 = k
      · rw [if_pos hk, if_pos (by rw [← hfst]; exact hk)]
        exact hsnd
      · rw [if_neg hk, if_neg (by rw [← hfst]; exact hk)]
        exact ih h2 k

lemma checkDep_congr {t t' : Tables} (h : tableKeys t = tableKeys t')
    (table_order : List String) (i : Nat) (tname dep : String) :
    checkDep table_order t i tname dep = checkDep table_order t' i tname dep := by
  simp only [checkDep, h]

/-- The validator's output only depends on the validator-visible view of
the mapping: key order and dependency lists. -/
lemma validate_congr {t t' : Tables} (h : namesDeps t = namesDeps t') :
    validate_dependencies t = validate_dependencies t' := by
  have hk : tableKeys t = tableKeys t' := keys_eq_of_namesDeps h
  rw [validate_eq_flatMap, validate_eq_flatMap, hk]
  have hb : subjectBlock (tableKeys t') t = subjectBlock (tableKeys t') t' := by
    funext p
    rw [subjectBlock, subjectBlock, lookupRec_deps_congr h p.2]
    have hc : checkDep (tableKeys t') t p.1 p.2 = checkDep (tableKeys t') t' p.1 p.2 :=
      funext (checkDep_congr hk _ p.1 p.2)
    rw [hc]
  rw [hb]

/- ## The state-passing validator returns the dict unchanged -/

lemma validateSt_inner (t : Tables) (ko : List String) (i : Nat) (n : String) :
    ∀ (deps : List String) (acc : List Violation),
      deps.foldl (fun st2 dep =>
        let sc := readCheckDep st2.1 ko i n dep
        (sc.1, st2.2 ++ sc.2.toList)) (t, acc)
      = (t, deps.foldl (fun errors dep =>
          errors ++ (checkDep ko t i n dep).toList) acc) := by
  intro deps
  induction deps with
  | nil => intro acc; rfl
  | cons dep deps ih =>
    intro acc
    rw [List.foldl_cons, List.foldl_cons]
    exact ih _

lemma validateSt_outer (t : Tables) (ko : List String) :
    ∀ (ps : List (Nat × String)) (acc : List Violation),
      ps.foldl (fun st p =>
        let sd := readDeps st.1 p.2
        sd.2.foldl (fun st2 dep =>
          let sc := readCheckDep st2.1 ko p.1 p.2 dep
          (sc.1, st2.2 ++ sc.2.toList)) (sd.1, st.2)) (t, acc)
      = (t, ps.foldl (fun errors p =>
          (lookupRec t p.2).dependencies.foldl (fun errors dep =>
            errors ++ (checkDep ko t p.1 p.2 dep).toList) errors) acc) := by
  intro ps
  induction ps with
  | nil => intro acc; rfl
  | cons p ps ih =>
    intro acc
    rw [List.foldl_cons, List.foldl_cons]
    have h1 := validateSt_inner t ko p.1 p.2 (lookupRec t p.2).dependencies acc
    dsimp only [readDeps]
    rw [h1]
    exact ih _

/- ## Dict assignment on an existing key -/

lemma keys_mapReplace (t : Tables) (k : String) (v : TableRec) :
    tableKeys (t.map (fun p => if p.1 = k then (k, v) else p)) = tableKeys t := by
  rw [tableKeys, tableKeys, List.map_map]
  apply List.map_congr_left
  intro p _
  by_cases hp : p.1 = k <;> simp [hp, Function.comp]

lemma lookup_mapReplace :
    ∀ {t : Tables} {k : String} (v : TableRec), k ∈ tableKeys t →
      lookupRec (t.map (fun p => if p.1 = k then (k, v) else p)) k = v := by
  intro t
  induction t with
  | nil =>
    intro k v hk
    simp [tableKeys] at hk
  | cons a t ih =>
    intro k v hk
    rw [List.map_cons]
    by_cases hp : a.1 = k
    · rw [if_pos hp]
      simp [lookupRec]
    · rw [if_neg hp]
      rw [lookupRec, if_neg hp]
      apply ih v
      have hcons : tableKeys (a :: t) = a.1 :: tableKeys t := rfl
      rw [hcons] at hk
      rcases List.mem_cons.mp hk with h | h
      · exact absurd h.symm hp
      · exact h

lemma keys_getElem?_of_getElem? {t : Tables} {i : Nat} {dname : String}
    {d : TableRec} (h : t[i]? = some (dname, d)) :
    (tableKeys t)[i]? = some dname := by
  rw [tableKeys, List.getElem?_map, h]
  rfl

lemma mem_of_getElem? {t : Tables} {i : Nat} {x : String × TableRec}
    (h : t[i]? = some x) : x ∈ t := by
  obtain ⟨hl, he⟩ := List.getElem?_eq_some_iff.mp h
  exact he ▸ List.getElem_mem hl

/- ## The claims -/

/-- Claim C3: for a declaration `d` at position `i` and a dependency `r`
that is declared, the validator emits the ForwardReference violation
(carrying the subject and target with their 1-based positions, as the
source's message does) exactly when `r`'s position is strictly greater
than `d`'s; a dependency declared at an earlier or equal position yields
no such violation. -/
theorem forwardReference_iff_later_position
    (t : Tables) (hnd : (tableKeys t).Nodup) (i : Nat) (dname : String)
    (d : TableRec) (hget : t[i]? = some (dname, d)) (r : String)
    (hr : r ∈ d.dependencies) (hrk : r ∈ tableKeys t) (sp tp : Nat) :
    Violation.forwardReference dname sp r tp ∈ validate_dependencies t ↔
      (sp = i + 1 ∧ tp = (tableKeys t).findIdx (· == r) + 1 ∧
        i < (tableKeys t).findIdx (· == r)) := by
  have hko : (tableKeys t)[i]? = some dname := keys_getElem?_of_getElem? hget
  have hmem : (dname, d) ∈ t := mem_of_getElem? hget
  have hlook : lookupRec t dname = d := lookupRec_eq_of_nodup_mem hnd hmem
  obtain ⟨j, hj⟩ := List.mem_iff_getElem?.mp hrk
  have hfi : (tableKeys t).findIdx (· == r) = j := findIdx_eq_of_nodup hnd hj
  have hpli : pyListIndex (tableKeys t) r = (j : Int) := pyListIndex_eq_of_nodup hnd hj
  rw [mem_validate_iff]
  constructor
  · rintro ⟨p, hp, dep, hdep, hcd⟩
    obtain ⟨hs, hrr, hdk, hgt, hsp, htp⟩ := checkDep_forward_inv hcd
    subst hrr
    have hpj : (tableKeys t)[p.1]? = some dname := by
      rw [hs]
      exact List.mem_enum_iff_getElem?.mp hp
    have hpi : p.1 = i := by
      apply List.getElem?_inj (List.getElem?_eq_some_iff.mp hpj).1 hnd
      rw [hpj, hko]
    rw [hpli] at hgt htp
    refine ⟨?_, ?_, ?_⟩
    · rw [hsp, hpi]
    · rw [htp, hfi]
      simp
    · rw [hfi, ← hpi]
      exact_mod_cast hgt
  · rintro ⟨hsp, htp, hlt⟩
    refine ⟨(i, dname), List.mem_enum_iff_getElem?.mpr hko, r, ?_, ?_⟩
    · rw [hlook]
      exact hr
    · have hgt : pyListIndex (tableKeys t) r > (i : Int) := by
        rw [hpli]
        exact_mod_cast (hfi ▸ hlt)
      rw [checkDep_forward_eval hrk hgt, hpli, hsp, htp, hfi]
      simp

/-- Claim C3 witness: in a mapping where `employees` (position 0) depends
on `roles` (position 1), the forward reference with 1-based positions 1
and 2 is reported. -/
theorem forwardReference_iff_later_position_witness :
    Violation.forwardReference "employees" 1 "roles" 2 ∈
      validate_dependencies
        [("employees", ⟨["roles"], 0⟩), ("roles", ⟨[], 1⟩)] := by
  exact (forwardReference_iff_later_position
    [("employees", ⟨["roles"], 0⟩), ("roles", ⟨[], 1⟩)]
    (by decide) 0 "employees" ⟨["roles"], 0⟩ (by decide) "roles"
    (by decide) (by decide) 1 2).mpr (by decide)

/-- Claim C4: a dependency on a name that is not declared yields an
UndeclaredReference for the pair and no ForwardReference for the pair;
the membership statements hold for every such pair at once, so the full
violation list is produced with no early termination. -/
theorem undeclaredReference_reported_no_forward
    (t : Tables) (hnd : (tableKeys t).Nodup) (i : Nat) (dname : String)
    (d : TableRec) (hget : t[i]? = some (dname, d)) (r : String)
    (hr : r ∈ d.dependencies) (hrk : r ∉ tableKeys t) :
    Violation.undeclaredReference dname r ∈ validate_dependencies t ∧
      ∀ sp tp, Violation.forwardReference dname sp r tp ∉ validate_dependencies t := by
  have hko : (tableKeys t)[i]? = some dname := keys_getElem?_of_getElem? hget
  have hlook : lookupRec t dname = d :=
    lookupRec_eq_of_nodup_mem hnd (mem_of_getElem? hget)
  constructor
  · rw [mem_validate_iff]
    refine ⟨(i, dname), List.mem_enum_iff_getElem?.mpr hko, r, ?_,
      checkDep_undeclared_eval hrk⟩
    rw [hlook]
    exact hr
  · intro sp tp hmem
    obtain ⟨p, hp, dep, hdep, hcd⟩ := mem_validate_iff.mp hmem
    obtain ⟨_, hrr, hdk, _, _, _⟩ := checkDep_forward_inv hcd
    exact hrk (hrr ▸ hdk)

/-- Claim C4 witness: `orders` depends on the never-declared `customers`;
the undeclared reference is in the violation list. -/
theorem undeclaredReference_reported_no_forward_witness :
    Violation.undeclaredReference "orders" "customers" ∈
      validate_dependencies [("orders", ⟨["customers"], 0⟩)] := by
  exact (undeclaredReference_reported_no_forward
    [("orders", ⟨["customers"], 0⟩)] (by decide) 0 "orders"
    ⟨["customers"], 0⟩ (by decide) "customers" (by decide) (by decide)).1

/-- Claim C5: extraction never records a table's own name among its
dependencies, and consequently the validator never emits an
UndeclaredReference or ForwardReference whose subject equals its target. -/
theorem selfReference_never_reported (content : String) (t : Tables)
    (hok : extract_table_definitions content = .ok t) :
    (∀ n d, (n, d) ∈ t → n ∉ d.dependencies) ∧
    (∀ n, Violation.undeclaredReference n n ∉ validate_dependencies t) ∧
    (∀ n sp tp, Violation.forwardReference n sp n tp ∉ validate_dependencies t) := by
  have hinv : NoSelfRef t := by
    rw [extract_table_definitions, extractLines] at hok
    cases hfold : (pySplitLines content).foldlM
        (extractStep (pySplitLines content)) ⟨none, []⟩ with
    | error e =>
      rw [hfold] at hok
      simp only [Except.map] at hok
      exact Except.noConfusion hok
    | ok out =>
      rw [hfold] at hok
      simp only [Except.map] at hok
      injection hok with hok
      have h0 : NoSelfRef (⟨none, []⟩ : ExtractState).tables := by
        intro n d hm
        cases hm
      have hout := foldlM_noSelfRef _ _ _ _ h0 hfold
      rwa [hok] at hout
  refine ⟨hinv, ?_, ?_⟩
  · intro n hmem
    obtain ⟨p, hp, dep, hdep, hcd⟩ := mem_validate_iff.mp hmem
    obtain ⟨hs, hrr, hdk⟩ := checkDep_undeclared_inv hcd
    apply hdk
    rw [← hrr, hs]
    exact List.mem_iff_getElem?.mpr ⟨p.1, List.mem_enum_iff_getElem?.mp hp⟩
  · intro n sp tp hmem
    obtain ⟨p, hp, dep, hdep, hcd⟩ := mem_validate_iff.mp hmem
    obtain ⟨hs, hrr, _, _, _, _⟩ := checkDep_forward_inv hcd
    rcases lookupRec_mem_or_default t p.2 with hm | hdef
    · apply hinv p.2 (lookupRec t p.2) hm
      rw [← hrr] at hdep
      rw [hs] at hdep
      exact hdep
    · rw [hdef] at hdep
      simp at hdep

/-- Claim C5 witness: a table whose span references itself comes out with
an empty dependency list, and the degenerate violations are absent. -/
theorem selfReference_never_reported_witness :
    "nodes" ∉ (⟨[], 0⟩ : TableRec).dependencies ∧
    Violation.undeclaredReference "nodes" "nodes" ∉
      validate_dependencies [("nodes", ⟨[], 0⟩)] := by
  have h := selfReference_never_reported
    "CREATE TABLE IF NOT EXISTS nodes (\nFOREIGN KEY (parent_id) REFERENCES nodes(id)\n);"
    [("nodes", ⟨[], 0⟩)] (by rfl)
  exact ⟨h.1 "nodes" ⟨[], 0⟩ (by decide), h.2.1 "nodes"⟩

/-- Claim C9: the validator is pure: threading the mapping through every
read the source performs returns the mapping unchanged, together with the
very violation list the read-only formulation computes. -/
theorem validate_leaves_mapping_unchanged (t : Tables) :
    validateSt t = (t, validate_dependencies t) := by
  rw [validateSt, validate_dependencies]
  dsimp only [readKeys]
  exact validateSt_outer t (tableKeys t) (tableKeys t).enum []

/-- Claim C9 witness: the frame property evaluated on a concrete
mapping. -/
theorem validate_leaves_mapping_unchanged_witness :
    validateSt [("orders", ⟨["customers"], 0⟩)] =
      ([("orders", ⟨["customers"], 0⟩)],
        validate_dependencies [("orders", ⟨["customers"], 0⟩)]) :=
  validate_leaves_mapping_unchanged [("orders", ⟨["customers"], 0⟩)]

/-- Claim C7: the pipeline is deterministic (two runs on the same document
give the same result — immediate, since the embedding is a pure function
and the source has no nondeterminism in its iteration: dicts iterate in
insertion order), the violation list is ordered by the subject's position
in the mapping, and the sublist of violations of one subject is exactly
that subject's dependency list processed in discovery order. -/
theorem validator_deterministic_and_ordered :
    (∀ content : String, runPipeline content = runPipeline content) ∧
    (∀ t : Tables, (tableKeys t).Nodup →
      ((validate_dependencies t).map (subjectIndex (tableKeys t))).Pairwise (· ≤ ·)) ∧
    (∀ (t : Tables) (i : Nat) (s : String), (tableKeys t).Nodup →
      (tableKeys t)[i]? = some s →
      (validate_dependencies t).filter (fun v => v.subject == s) =
        subjectBlock (tableKeys t) t (i, s)) := by
  refine ⟨fun _ => rfl, ?_, ?_⟩
  · intro t hnd
    rw [validate_eq_flatMap, List.map_flatMap]
    refine pairwise_flatMap_enumFrom _ (tableKeys t) 0 ?_
    intro p hp x hx
    obtain ⟨v, hv, rfl⟩ := List.mem_map.mp hx
    obtain ⟨dep, hdep, hcd⟩ := List.mem_filterMap.mp hv
    rw [subjectIndex, checkDep_subject hcd]
    exact findIdx_eq_of_nodup hnd (List.mem_enum_iff_getElem?.mp hp)
  · intro t i s hnd hgs
    rw [validate_eq_flatMap, List.filter_flatMap]
    have hone := flatMap_enumFrom_single
      (fun p => (subjectBlock (tableKeys t) t p).filter (fun v => v.subject == s))
      (tableKeys t) 0 i s hgs (by
        intro p hp hne
        apply List.filter_eq_nil_iff.mpr
        intro v hv hbeq
        obtain ⟨dep, hdep, hcd⟩ := List.mem_filterMap.mp hv
        have hsub : p.2 = s := by
          rw [← checkDep_subject hcd]
          exact eq_of_beq hbeq
        have hpj : (tableKeys t)[p.1]? = some s := by
          rw [← hsub]
          exact List.mem_enum_iff_getElem?.mp hp
        have : p.1 = i :=
          List.getElem?_inj (List.getElem?_eq_some_iff.mp hpj).1 hnd
            (by rw [hpj, hgs])
        omega)
    rw [show (tableKeys t).enum = (tableKeys t).enumFrom 0 from rfl, hone,
      Nat.zero_add]
    apply List.filter_eq_self.mpr
    intro v hv
    obtain ⟨dep, hdep, hcd⟩ := List.mem_filterMap.mp hv
    rw [checkDep_subject hcd]
    simp

/-- Claim C7 witness: the three parts instantiated at a concrete document
and at a two-table mapping with one forward reference. -/
theorem validator_deterministic_and_ordered_witness :
    runPipeline "CREATE TABLE IF NOT EXISTS a (\n);" =
      runPipeline "CREATE TABLE IF NOT EXISTS a (\n);" ∧
    ((validate_dependencies
        [("employees", ⟨["roles", "missing"], 0⟩), ("roles", ⟨[], 1⟩)]).map
      (subjectIndex (tableKeys
        [("employees", ⟨["roles", "missing"], 0⟩), ("roles", ⟨[], 1⟩)]))).Pairwise
      (· ≤ ·) ∧
    (validate_dependencies
        [("employees", ⟨["roles", "missing"], 0⟩), ("roles", ⟨[], 1⟩)]).filter
      (fun v => v.subject == "employees") =
      subjectBlock
        (tableKeys [("employees", ⟨["roles", "missing"], 0⟩), ("roles", ⟨[], 1⟩)])
        [("employees", ⟨["roles", "missing"], 0⟩), ("roles", ⟨[], 1⟩)]
        (0, "employees") := by
  refine ⟨validator_deterministic_and_ordered.1 _,
    validator_deterministic_and_ordered.2.1 _ (by decide),
    validator_deterministic_and_ordered.2.2 _ 0 "employees" (by decide) (by decide)⟩

/-- Claim C8: a document none of whose lines contains a declaration
marker extracts to the empty mapping, and validating the empty mapping
gives the empty violation list: the degenerate case is a result, not an
error. -/
theorem no_declarations_empty_result (content : String)
    (h : ∀ l ∈ pySplitLines content, findCreate (pyStrip l) = none) :
    extract_table_definitions content = .ok [] ∧
      validate_dependencies [] = [] := by
  constructor
  · rw [extract_table_definitions, extractLines,
      foldlM_no_create (pySplitLines content) (pySplitLines content) h]
    rfl
  · rfl

/-- Claim C8 witness: a document with query text and even a dependency
marker, but no declaration marker. -/
theorem no_declarations_empty_result_witness :
    extract_table_definitions "SELECT 1;\nFOREIGN KEY (x) REFERENCES y(z)" = .ok [] ∧
      validate_dependencies [] = [] :=
  no_declarations_empty_result "SELECT 1;\nFOREIGN KEY (x) REFERENCES y(z)" (by decide)

/-- Claim C10: dependency markers that appear before the first declaration
marker are silently discarded.  Part one: such a prefix leaves the
extraction state untouched (no entity is charged with them).  Part two:
prepending such a prefix to a document that extracts successfully yields a
mapping with identical names and dependency lists (only the dead
line-number field can differ) and an identical violation list. -/
theorem predeclaration_markers_discarded (pre rest : List String)
    (h : ∀ l ∈ pre, findCreate (pyStrip l) = none) :
    (∀ (ctx : List String) (tbls : Tables),
      pre.foldlM (extractStep ctx) ⟨none, tbls⟩ = .ok ⟨none, tbls⟩) ∧
    (∀ t, extractLines rest = .ok t →
      ∃ t', extractLines (pre ++ rest) = .ok t' ∧
        namesDeps t' = namesDeps t ∧
        validate_dependencies t' = validate_dependencies t) := by
  constructor
  · intro ctx tbls
    exact foldlM_no_create pre ctx h
  · intro t ht
    rw [extractLines] at ht
    cases hfold : rest.foldlM (extractStep rest) ⟨none, []⟩ with
    | error e =>
      rw [hfold] at ht
      simp only [Except.map] at ht
      exact Except.noConfusion ht
    | ok out =>
      rw [hfold] at ht
      simp only [Except.map] at ht
      injection ht with ht
      have hext : ∀ s n, lineNumOf rest s = .ok n →
          ∃ m, lineNumOf (pre ++ rest) s = .ok m :=
        fun s n hh => lineNumOf_extend hh
      obtain ⟨out', hfold', hrel⟩ :=
        foldlM_ctx hext rest ⟨none, []⟩ ⟨none, []⟩ ⟨rfl, rfl⟩ hfold
      refine ⟨out'.tables, ?_, ?_, ?_⟩
      · rw [extractLines, List.foldlM_append,
          foldlM_no_create pre (pre ++ rest) h]
        simp only [bind, Except.bind]
        rw [hfold']
        rfl
      · rw [← ht]
        exact hrel.2.symm
      · rw [← ht]
        exact validate_congr hrel.2.symm

/-- Claim C10 witness: one dependency marker line before the first
declaration; it charges no entity and changes neither the extracted
names-and-dependencies view nor the violation list. -/
theorem predeclaration_markers_discarded_witness :
    (["FOREIGN KEY (a) REFERENCES b(x)"].foldlM
      (extractStep []) (⟨none, []⟩ : ExtractState) = .ok ⟨none, []⟩) ∧
    (∃ t', extractLines
        (["FOREIGN KEY (a) REFERENCES b(x)"] ++
          ["CREATE TABLE IF NOT EXISTS b (", "x INT", ");"]) = .ok t' ∧
      namesDeps t' = namesDeps [("b", ⟨[], 0⟩)] ∧
      validate_dependencies t' = validate_dependencies [("b", ⟨[], 0⟩)]) := by
  have h := predeclaration_markers_discarded
    ["FOREIGN KEY (a) REFERENCES b(x)"]
    ["CREATE TABLE IF NOT EXISTS b (", "x INT", ");"] (by decide)
  exact ⟨h.1 [] [], h.2 [("b", ⟨[], 0⟩)] (by rfl)⟩

/-- Claim C2 (code-bug evidence): on a declaration line carrying leading
whitespace, extraction raises `ValueError`.  The loop strips each line
before matching, but the line-number computation then looks the stripped
text up in the unstripped line list with `lines.index(line)`, which fails
when the stripped text is not literally one of the lines.  The claim (and
the spec's propagation policy) says the core completes without raising on
such documents. -/
theorem whitespace_declaration_raises_valueError :
    extract_table_definitions
      "   CREATE TABLE IF NOT EXISTS users (\nid INT\n);" =
      .error .valueError := by
  rfl

/-- Claim C1 counterexample: `products` is declared twice and its first
span records a dependency on `categories`.  The extractor keeps a single
entry for `products` holding only the second occurrence's record (its
dependency list is reset to `[]` — the earlier occurrence is silently
overwritten), and the validator returns no violation at all; in
particular it does not emit exactly one DuplicateDeclaration. -/
theorem duplicate_declaration_counterexample :
    extract_table_definitions
      "CREATE TABLE IF NOT EXISTS products (\nFOREIGN KEY (c) REFERENCES categories(id)\n);\nCREATE TABLE IF NOT EXISTS categories (\nid INT\n);\nCREATE TABLE IF NOT EXISTS products (\nid INT\n);" =
      .ok [("products", ⟨[], 0⟩), ("categories", ⟨[], 3⟩)] ∧
    validate_dependencies [("products", ⟨[], 0⟩), ("categories", ⟨[], 3⟩)] = [] ∧
    (validate_dependencies [("products", ⟨[], 0⟩), ("categories", ⟨[], 3⟩)]).count
      (.duplicateDeclaration "products") = 0 := by
  exact ⟨by rfl, by rfl, by rfl⟩

/-- Claim C1 amended: re-declaring an existing name overwrites its record
in place — the key keeps its (first) position in the mapping order and the
earlier occurrence's dependencies are lost — and `validate_dependencies`
never emits a DuplicateDeclaration for any mapping (in the repository,
duplicate table names are reported by the separate `validate_schema.py`
script, not by this validator). -/
theorem duplicate_declaration_amended :
    (∀ (t : Tables) (k : String) (v : TableRec), k ∈ tableKeys t →
      tableKeys (pyDictSet t k v) = tableKeys t ∧
        lookupRec (pyDictSet t k v) k = v) ∧
    (∀ (t : Tables) (name : String),
      Violation.duplicateDeclaration name ∉ validate_dependencies t) := by
  constructor
  · intro t k v hk
    rw [pyDictSet, if_pos hk]
    exact ⟨keys_mapReplace t k v, lookup_mapReplace v hk⟩
  · intro t name hmem
    obtain ⟨p, hp, dep, hdep, hcd⟩ := mem_validate_iff.mp hmem
    exact checkDep_ne_dup hcd

/-- Claim C1 amended, witness: overwriting `products` keeps the key order,
replaces the record, and no DuplicateDeclaration is emitted. -/
theorem duplicate_declaration_amended_witness :
    tableKeys (pyDictSet [("products", ⟨["categories"], 0⟩)] "products" ⟨[], 5⟩) =
      ["products"] ∧
    lookupRec (pyDictSet [("products", ⟨["categories"], 0⟩)] "products" ⟨[], 5⟩)
      "products" = ⟨[], 5⟩ ∧
    Violation.duplicateDeclaration "products" ∉
      validate_dependencies [("products", ⟨["categories"], 0⟩)] := by
  have h := duplicate_declaration_amended
  have h1 := h.1 [("products", ⟨["categories"], 0⟩)] "products" ⟨[], 5⟩ (by decide)
  exact ⟨h1.1.trans (by rfl), h1.2, h.2 _ "products"⟩

/-- Claim C6 counterexample: two FOREIGN KEY markers in one span name the
same (undeclared) table `customers`; extraction records the name twice and
validation emits the reference violation twice, not at most once. -/
theorem duplicate_dependency_counterexample :
    extract_table_definitions
      "CREATE TABLE IF NOT EXISTS orders (\nFOREIGN KEY (a) REFERENCES customers(id),\nFOREIGN KEY (b) REFERENCES customers(id)\n);" =
      .ok [("orders", ⟨["customers", "customers"], 0⟩)] ∧
    validate_dependencies [("orders", ⟨["customers", "customers"], 0⟩)] =
      [.undeclaredReference "orders" "customers",
        .undeclaredReference "orders" "customers"] := by
  exact ⟨by rfl, by rfl⟩

/-- Claim C6 amended: the recorded dependencies form a list, not a set:
each (non-self) dependency marker appends its name even when the name is
already present, and a violating pair is reported once per recorded
occurrence rather than at most once — when the target is undeclared, the
UndeclaredReference for the pair appears with multiplicity equal to the
multiplicity of the target in the dependency list, and when the target is
declared at a strictly later position, the ForwardReference for the pair
likewise appears with that multiplicity. -/
theorem dependencies_are_a_list_amended :
    (∀ (t : Tables) (k dep : String), k ∈ tableKeys t →
      (lookupRec (pyAppendDep t k dep) k).dependencies =
        (lookupRec t k).dependencies ++ [dep]) ∧
    (∀ (t : Tables), (tableKeys t).Nodup →
      ∀ (i : Nat) (dname : String) (d : TableRec) (r : String),
        t[i]? = some (dname, d) → r ∉ tableKeys t →
        (validate_dependencies t).count (.undeclaredReference dname r) =
          d.dependencies.count r) ∧
    (∀ (t : Tables), (tableKeys t).Nodup →
      ∀ (i : Nat) (dname : String) (d : TableRec) (r : String) (j : Nat),
        t[i]? = some (dname, d) → (tableKeys t)[j]? = some r → i < j →
        (validate_dependencies t).count
          (.forwardReference dname (i + 1) r (j + 1)) =
          d.dependencies.count r) := by
  refine ⟨?_, ?_, ?_⟩
  · intro t
    induction t with
    | nil =>
      intro k dep hk
      simp [tableKeys] at hk
    | cons a t ih =>
      intro k dep hk
      rw [pyAppendDep, List.map_cons]
      by_cases hp : a.1 = k
      · rw [if_pos hp]
        simp [lookupRec, hp]
      · rw [if_neg hp]
        rw [lookupRec, if_neg hp, lookupRec, if_neg hp]
        have hcons : tableKeys (a :: t) = a.1 :: tableKeys t := rfl
        rw [hcons] at hk
        rcases List.mem_cons.mp hk with h | h
        · exact absurd h.symm hp
        · exact ih k dep h
  · intro t hnd i dname d r hget hrk
    have hko := keys_getElem?_of_getElem? hget
    have hlook := lookupRec_eq_of_nodup_mem hnd (mem_of_getElem? hget)
    rw [validate_eq_flatMap, List.count_flatMap,
      show (tableKeys t).enum = (tableKeys t).enumFrom 0 from rfl]
    have hz : ∀ p ∈ (tableKeys t).enumFrom 0, p.1 ≠ 0 + i →
        (List.count (Violation.undeclaredReference dname r) ∘
          subjectBlock (tableKeys t) t) p = 0 := by
      intro p hp hne
      dsimp only [Function.comp]
      apply List.count_eq_zero.mpr
      intro hv
      obtain ⟨dep, hdep, hcd⟩ := List.mem_filterMap.mp hv
      have hsub : dname = p.2 := checkDep_subject hcd
      have hpj : (tableKeys t)[p.1]? = some dname := by
        rw [hsub]
        exact List.mem_enum_iff_getElem?.mp hp
      have : p.1 = i :=
        List.getElem?_inj (List.getElem?_eq_some_iff.mp hpj).1 hnd
          (by rw [hpj, hko])
      omega
    rw [sum_enumFrom_single _ (tableKeys t) 0 i dname hko hz, Nat.zero_add]
    dsimp only [Function.comp]
    rw [subjectBlock]
    dsimp only
    rw [hlook, List.count_filterMap,
      show d.dependencies.count r = d.dependencies.countP (· == r) from rfl]
    apply List.countP_congr
    intro x hx
    constructor
    · intro hbeq
      have hcd : checkDep (tableKeys t) t i dname x =
          some (.undeclaredReference dname r) := eq_of_beq hbeq
      obtain ⟨_, hrr, _⟩ := checkDep_undeclared_inv hcd
      simp [hrr]
    · intro hbeq
      have hx : x = r := eq_of_beq hbeq
      subst hx
      rw [checkDep_undeclared_eval hrk]
      simp
  · intro t hnd i dname d r j hget hj hij
    have hko := keys_getElem?_of_getElem? hget
    have hlook := lookupRec_eq_of_nodup_mem hnd (mem_of_getElem? hget)
    have hrm : r ∈ tableKeys t := List.mem_iff_getElem?.mpr ⟨j, hj⟩
    have hpli : pyListIndex (tableKeys t) r = (j : Int) :=
      pyListIndex_eq_of_nodup hnd hj
    have hgt : pyListIndex (tableKeys t) r > (i : Int) := by
      rw [hpli]
      exact_mod_cast hij
    rw [validate_eq_flatMap, List.count_flatMap,
      show (tableKeys t).enum = (tableKeys t).enumFrom 0 from rfl]
    have hz : ∀ p ∈ (tableKeys t).enumFrom 0, p.1 ≠ 0 + i →
        (List.count (Violation.forwardReference dname (i + 1) r (j + 1)) ∘
          subjectBlock (tableKeys t) t) p = 0 := by
      intro p hp hne
      dsimp only [Function.comp]
      apply List.count_eq_zero.mpr
      intro hv
      obtain ⟨dep, hdep, hcd⟩ := List.mem_filterMap.mp hv
      have hsub : dname = p.2 := checkDep_subject hcd
      have hpj : (tableKeys t)[p.1]? = some dname := by
        rw [hsub]
        exact List.mem_enum_iff_getElem?.mp hp
      have : p.1 = i :=
        List.getElem?_inj (List.getElem?_eq_some_iff.mp hpj).1 hnd
          (by rw [hpj, hko])
      omega
    rw [sum_enumFrom_single _ (tableKeys t) 0 i dname hko hz, Nat.zero_add]
    dsimp only [Function.comp]
    rw [subjectBlock]
    dsimp only
    rw [hlook, List.count_filterMap,
      show d.dependencies.count r = d.dependencies.countP (· == r) from rfl]
    apply List.countP_congr
    intro x hx
    constructor
    · intro hbeq
      have hcd : checkDep (tableKeys t) t i dname x =
          some (.forwardReference dname (i + 1) r (j + 1)) := eq_of_beq hbeq
      obtain ⟨_, hrr, _, _, _, _⟩ := checkDep_forward_inv hcd
      simp [hrr]
    · intro hbeq
      have hx : x = r := eq_of_beq hbeq
      subst hx
      rw [checkDep_forward_eval hrm hgt, hpli]
      simp

/-- Claim C6 amended, witness: appending an already-present dependency
really appends, a doubled undeclared dependency yields an
UndeclaredReference count of two, and a doubled forward dependency yields
a ForwardReference count of two — in both cases the multiplicity of the
name in the dependency list. -/
theorem dependencies_are_a_list_amended_witness :
    (lookupRec (pyAppendDep [("orders", ⟨["customers"], 0⟩)] "orders" "customers")
      "orders").dependencies = ["customers", "customers"] ∧
    (validate_dependencies [("orders", ⟨["customers", "customers"], 0⟩)]).count
      (.undeclaredReference "orders" "customers") =
      List.count "customers" ["customers", "customers"] ∧
    (validate_dependencies
        [("employees", ⟨["roles", "roles"], 0⟩), ("roles", ⟨[], 1⟩)]).count
      (.forwardReference "employees" 1 "roles" 2) =
      List.count "roles" ["roles", "roles"] := by
  have h := dependencies_are_a_list_amended
  refine ⟨(h.1 [("orders", ⟨["customers"], 0⟩)] "orders" "customers"
    (by decide)).trans (by rfl), ?_, ?_⟩
  · exact h.2.1 [("orders", ⟨["customers", "customers"], 0⟩)] (by decide) 0
      "orders" ⟨["customers", "customers"], 0⟩ "customers" (by decide) (by decide)
  · exact h.2.2 [("employees", ⟨["roles", "roles"], 0⟩), ("roles", ⟨[], 1⟩)]
      (by decide) 0 "employees" ⟨["roles", "roles"], 0⟩ "roles" 1 (by decide)
      (by decide) (by decide)

end SchemaDep
